import Mathlib

/-!
Verification of the `UnvisitedIterator` sequence adapter.

The structure owns a double-ended pending queue (`inner`, a `VecDeque<T>`
in the source, modelled as a `List T` with the front at the head) and a
set of already-produced items (`visited`, a `HashSet<T>` in the source,
modelled as a `List T` queried only through membership).  Equality of the
element type is the semantics that matters, so `DecidableEq T` stands in
for the source's `Eq + Hash` bound.
-/

namespace Unvisited

structure UnvisitedIterator (T : Type) where
  visited : List T
  inner : List T
deriving DecidableEq, Repr

variable {T : Type} [DecidableEq T]

/-- `UnvisitedIterator::from_value`: a single pending entry, nothing visited. -/
def from_value (v : T) : UnvisitedIterator T :=
  { visited := [], inner := [v] }

/-- `UnvisitedIterator::from_iter`: drain the source in order into `inner`,
nothing visited. -/
def from_iter (l : List T) : UnvisitedIterator T :=
  { visited := [], inner := l }

/-- `UnvisitedIterator::push_front`: unconditionally put `v` at the head of
`inner`. -/
def push_front (s : UnvisitedIterator T) (v : T) : UnvisitedIterator T :=
  { s with inner := v :: s.inner }

/-- `UnvisitedIterator::push_back`: unconditionally put `v` at the tail of
`inner`. -/
def push_back (s : UnvisitedIterator T) (v : T) : UnvisitedIterator T :=
  { s with inner := s.inner ++ [v] }

/-- The loop body of `Iterator::next`: pop from the front of the queue until
an element outside `visited` appears (record it and return it) or the queue
runs dry (return `none`). -/
def nextAux : List T → List T → Option T × UnvisitedIterator T
  | visited, [] => (none, { visited := visited, inner := [] })
  | visited, x :: rest =>
    if x ∈ visited then nextAux visited rest
    else (some x, { visited := x :: visited, inner := rest })

/-- `Iterator::next` for `UnvisitedIterator`: returns the produced item (or
`none` at exhaustion) together with the successor state. -/
def next (s : UnvisitedIterator T) : Option T × UnvisitedIterator T :=
  nextAux s.visited s.inner

/-- `IntoUnvisitedIterator::skip_visited`: the source implementation merely
calls `UnvisitedIterator::from_iter` on the adapted producer. -/
def skip_visited (l : List T) : UnvisitedIterator T :=
  from_iter l

/-- The derived `Default` implementation: both containers empty. -/
def defaultState : UnvisitedIterator T :=
  { visited := [], inner := [] }

/-- The outcomes of `n` successive calls to `next`, front first. -/
def steps : Nat → UnvisitedIterator T → List (Option T)
  | 0, _ => []
  | n + 1, s => (next s).1 :: steps n (next s).2

/-- The state reached after `n` successive calls to `next`. -/
def stateAfter : Nat → UnvisitedIterator T → UnvisitedIterator T
  | 0, s => s
  | n + 1, s => stateAfter n (next s).2

/-- One client-visible operation on a live iterator. -/
inductive Op (T : Type) where
  | pushFront (v : T)
  | pushBack (v : T)
  | step
deriving DecidableEq

/-- One of the two constructors. -/
inductive Init (T : Type) where
  | fromValue (v : T)
  | fromIter (l : List T)
deriving DecidableEq

def initState : Init T → UnvisitedIterator T
  | Init.fromValue v => from_value v
  | Init.fromIter l => from_iter l

/-- Run a sequence of operations, collecting every value `next` returns. -/
def runOps : UnvisitedIterator T → List (Op T) → List T
  | _, [] => []
  | s, Op.pushFront v :: ops => runOps (push_front s v) ops
  | s, Op.pushBack v :: ops => runOps (push_back s v) ops
  | s, Op.step :: ops =>
    match next s with
    | (none, t) => runOps t ops
    | (some x, t) => x :: runOps t ops

/-! ### Characterisation of one call to `next` -/

theorem nextAux_cases (visited inner : List T) :
    (∃ t : UnvisitedIterator T, nextAux visited inner = (none, t) ∧
      t.visited = visited ∧ t.inner = [] ∧ ∀ y ∈ inner, y ∈ visited) ∨
    (∃ x, ∃ t : UnvisitedIterator T, nextAux visited inner = (some x, t) ∧
      x ∉ visited ∧ t.visited = x :: visited) := by
  induction inner with
  | nil =>
    exact Or.inl ⟨_, rfl, rfl, rfl, by simp⟩
  | cons x rest ih =>
    by_cases hx : x ∈ visited
    · rcases ih with ⟨t, ht, hv, hi, hall⟩ | ⟨y, t, ht, hy, hv⟩
      · refine Or.inl ⟨t, ?_, hv, hi, ?_⟩
        · simpa [nextAux, hx] using ht
        · intro y hy
          rcases List.mem_cons.mp hy with h | h
          · exact h ▸ hx
          · exact hall y h
      · refine Or.inr ⟨y, t, ?_, hy, hv⟩
        simpa [nextAux, hx] using ht
    · exact Or.inr ⟨x, { visited := x :: visited, inner := rest },
        by simp [nextAux, hx], hx, rfl⟩

theorem next_none (s : UnvisitedIterator T) (t : UnvisitedIterator T)
    (h : next s = (none, t)) : t.visited = s.visited ∧ t.inner = [] := by
  rcases nextAux_cases s.visited s.inner with ⟨u, hu, hv, hi, _⟩ | ⟨x, u, hu, _, _⟩
  · rw [next, hu] at h
    cases h
    exact ⟨hv, hi⟩
  · rw [next, hu] at h
    cases h

theorem next_some (s : UnvisitedIterator T) (x : T) (t : UnvisitedIterator T)
    (h : next s = (some x, t)) : x ∉ s.visited ∧ t.visited = x :: s.visited := by
  rcases nextAux_cases s.visited s.inner with ⟨u, hu, _, _, _⟩ | ⟨y, u, hu, hy, hv⟩
  · rw [next, hu] at h
    cases h
  · rw [next, hu] at h
    cases h
    exact ⟨hy, hv⟩

/-- Values collected by any run are pairwise distinct and avoid everything
already recorded in the starting state's `visited` set. -/
theorem runOps_nodup_disjoint (ops : List (Op T)) :
    ∀ s : UnvisitedIterator T,
      (runOps s ops).Nodup ∧ ∀ y ∈ runOps s ops, y ∉ s.visited := by
  induction ops with
  | nil =>
    intro s
    simp [runOps]
  | cons op rest ih =>
    intro s
    cases op with
    | pushFront v =>
      simpa [runOps, push_front] using ih (push_front s v)
    | pushBack v =>
      simpa [runOps, push_back] using ih (push_back s v)
    | step =>
      rcases h : next s with ⟨o, t⟩
      cases o with
      | none =>
        have hv := (next_none s t h).1
        obtain ⟨hnd, hdisj⟩ := ih t
        have hrun : runOps s (Op.step :: rest) = runOps t rest := by
          simp [runOps, h]
        refine ⟨hrun ▸ hnd, fun y hy => ?_⟩
        rw [hrun] at hy
        exact hv ▸ hdisj y hy
      | some x =>
        obtain ⟨hx, hv⟩ := next_some s x t h
        obtain ⟨hnd, hdisj⟩ := ih t
        have hrun : runOps s (Op.step :: rest) = x :: runOps t rest := by
          simp [runOps, h]
        constructor
        · rw [hrun]
          refine List.nodup_cons.mpr ⟨fun hxmem => ?_, hnd⟩
          have := hdisj x hxmem
          rw [hv] at this
          exact this (List.mem_cons_self x s.visited)
        · intro y hy
          rw [hrun] at hy
          rcases List.mem_cons.mp hy with h1 | h1
          · exact h1 ▸ hx
          · intro hyv
            exact hdisj y h1 (hv ▸ List.mem_cons_of_mem x hyv)

/-- One pass of the production loop drops a prefix of the queue and, when it
yields a value, pushes exactly that value onto `visited`.  Every dropped
element other than the yielded one was already visited. -/
theorem nextAux_frame (visited inner : List T) :
    ∃ k, k ≤ inner.length ∧
      ((nextAux visited inner).2).inner = List.drop k inner ∧
      (((nextAux visited inner).1 = none ∧
          ((nextAux visited inner).2).visited = visited ∧
          ∀ y ∈ List.take k inner, y ∈ visited) ∨
        (∃ x, (nextAux visited inner).1 = some x ∧
          ((nextAux visited inner).2).visited = x :: visited ∧
          ∀ y ∈ List.take k inner, y ∈ visited ∨ y = x)) := by
  induction inner with
  | nil =>
    exact ⟨0, Nat.le_refl 0, rfl, Or.inl ⟨rfl, rfl, by simp⟩⟩
  | cons x rest ih =>
    by_cases hx : x ∈ visited
    · obtain ⟨k, hk, hdrop, hbr⟩ := ih
      refine ⟨k + 1, Nat.succ_le_succ hk, ?_, ?_⟩
      · simpa [nextAux, hx] using hdrop
      · rcases hbr with ⟨h1, h2, h3⟩ | ⟨z, h1, h2, h3⟩
        · refine Or.inl ⟨by simpa [nextAux, hx] using h1,
            by simpa [nextAux, hx] using h2, ?_⟩
          intro y hy
          rcases List.mem_cons.mp (by simpa using hy) with h | h
          · exact h ▸ hx
          · exact h3 y h
        · refine Or.inr ⟨z, by simpa [nextAux, hx] using h1,
            by simpa [nextAux, hx] using h2, ?_⟩
          intro y hy
          rcases List.mem_cons.mp (by simpa using hy) with h | h
          · exact Or.inl (h ▸ hx)
          · exact h3 y h
    · refine ⟨1, by simp, by simp [nextAux, hx], ?_⟩
      refine Or.inr ⟨x, by simp [nextAux, hx], by simp [nextAux, hx], ?_⟩
      intro y hy
      simp only [List.take, List.take_zero, List.mem_singleton] at hy
      exact Or.inr hy

/-- Draining a queue whose entries are distinct and disjoint from `visited`
reproduces the queue in order and then signals the end. -/
theorem steps_drain (l : List T) :
    ∀ visited : List T, l.Nodup → (∀ y ∈ l, y ∉ visited) →
      steps (l.length + 1) { visited := visited, inner := l } =
        l.map some ++ [none] := by
  induction l with
  | nil =>
    intro visited _ _
    simp [steps, next, nextAux]
  | cons x rest ih =>
    intro visited hnd hdisj
    have hx : x ∉ visited := hdisj x (List.mem_cons_self x rest)
    have h1 : next { visited := visited, inner := x :: rest } =
        (some x, { visited := x :: visited, inner := rest }) := by
      simp [next, nextAux, hx]
    have h2 : steps (rest.length + 1) { visited := x :: visited, inner := rest } =
        rest.map some ++ [none] := by
      refine ih (x :: visited) (List.nodup_cons.mp hnd).2 ?_
      intro y hy
      simp only [List.mem_cons]
      push_neg
      exact ⟨fun he => (List.nodup_cons.mp hnd).1 (he ▸ hy),
        hdisj y (List.mem_cons_of_mem x hy)⟩
    calc steps ((x :: rest).length + 1) { visited := visited, inner := x :: rest }
        = some x :: steps (rest.length + 1) { visited := x :: visited, inner := rest } := by
          simp [steps, h1]
      _ = (x :: rest).map some ++ [none] := by rw [h2]; simp

/-! ### The claims -/

/-- C1: for every sequence of constructor, push_front, push_back and next
operations on one instance, no value equal to a value previously returned
by next is ever returned by next again — the collected outputs are
pairwise distinct. -/
theorem no_repeat (i : Init T) (ops : List (Op T)) :
    (runOps (initState i) ops).Nodup :=
  (runOps_nodup_disjoint ops (initState i)).1

/-- C2: from_iter on [1,2,1,3] followed by four next calls yields exactly
1, 2, 3 and then the end signal; the second occurrence of 1 is skipped. -/
theorem from_iter_dup_run :
    steps 4 (from_iter [1, 2, 1, 3] : UnvisitedIterator Nat) =
      [some 1, some 2, some 3, none] := by
  decide

/-- C3: from_iter on a duplicate-free sequence S, driven by next with no
intervening pushes, yields exactly S in order followed by the end signal. -/
theorem from_iter_nodup_run (l : List T) (h : l.Nodup) :
    steps (l.length + 1) (from_iter l) = l.map some ++ [none] :=
  steps_drain l [] h (by simp)

theorem from_iter_nodup_run_witness :
    steps 4 (from_iter [1, 2, 3] : UnvisitedIterator Nat) =
      [some 1, some 2, some 3, none] := by
  simpa using from_iter_nodup_run ([1, 2, 3] : List Nat) (by decide)

/-- C4: for distinct v0, v1: after from_value v0 then push_front v1 the next
two calls yield v1 then v0; after from_value v0 then push_back v1 they yield
v0 then v1. -/
theorem push_ordering (v0 v1 : T) (h : v0 ≠ v1) :
    (next (push_front (from_value v0) v1)).1 = some v1 ∧
    (next (next (push_front (from_value v0) v1)).2).1 = some v0 ∧
    (next (push_back (from_value v0) v1)).1 = some v0 ∧
    (next (next (push_back (from_value v0) v1)).2).1 = some v1 := by
  refine ⟨?_, ?_, ?_, ?_⟩ <;>
    simp [next, nextAux, push_front, push_back, from_value, h, Ne.symm h]

theorem push_ordering_witness :
    (next (push_front (from_value 0) 1)).1 = some 1 ∧
    (next (next (push_front (from_value 0) 1)).2).1 = some 0 ∧
    (next (push_back (from_value (0 : Nat)) 1)).1 = some 0 ∧
    (next (next (push_back (from_value 0) 1)).2).1 = some 1 :=
  push_ordering (0 : Nat) 1 (by decide)

/-- C5: on an exhausted instance (empty queue), pushing an already-produced
value and calling next yields the end signal with the state unchanged, while
pushing an unproduced value yields exactly that value; concretely, after
draining from_iter [1,2,3], push_back 2 then next gives none and push_back 4
then next gives 4. -/
theorem exhausted_push_revival :
    (∀ (U : Type) [DecidableEq U] (s : UnvisitedIterator U) (v w : U),
        s.inner = [] → v ∈ s.visited → w ∉ s.visited →
          next (push_back s v) = (none, s) ∧
          next (push_back s w) =
            (some w, { visited := w :: s.visited, inner := [] })) ∧
    steps 4 (from_iter [1, 2, 3] : UnvisitedIterator Nat) =
      [some 1, some 2, some 3, none] ∧
    (next (push_back (stateAfter 4 (from_iter [1, 2, 3] :
      UnvisitedIterator Nat)) 2)).1 = none ∧
    (next (push_back (next (push_back (stateAfter 4 (from_iter [1, 2, 3] :
      UnvisitedIterator Nat)) 2)).2 4)).1 = some 4 := by
  refine ⟨?_, by decide, by decide, by decide⟩
  intro U _ s v w hin hv hw
  cases s with
  | mk visited inner =>
    simp only at hin
    subst hin
    constructor
    · simp [push_back, next, nextAux, hv]
    · simp [push_back, next, nextAux, hw]

theorem exhausted_push_revival_witness :
    next (push_back ({ visited := [5], inner := [] } : UnvisitedIterator Nat) 5) =
      (none, { visited := [5], inner := [] }) ∧
    next (push_back ({ visited := [5], inner := [] } : UnvisitedIterator Nat) 6) =
      (some 6, { visited := [6, 5], inner := [] }) :=
  exhausted_push_revival.1 Nat { visited := [5], inner := [] } 5 6 rfl
    (by decide) (by decide)

/-- C6: from_value v builds the state with the single pending entry v and an
empty produced set; the first next call returns v, the second returns the
end signal. -/
theorem from_value_spec (v : T) :
    (from_value v).visited = [] ∧ (from_value v).inner = [v] ∧
    (next (from_value v)).1 = some v ∧
    (next (next (from_value v)).2).1 = none := by
  simp [from_value, next, nextAux]

/-- C7: push_front and push_back insert unconditionally at head and tail of
the pending queue, with no dedup check, keeping the rest of the queue and
the whole produced set unchanged, for every state and every value. -/
theorem push_frame (s : UnvisitedIterator T) (v : T) :
    push_front s v = { visited := s.visited, inner := v :: s.inner } ∧
    push_back s v = { visited := s.visited, inner := s.inner ++ [v] } :=
  ⟨rfl, rfl⟩

/-- C8: skip_visited produces a state equal to the one from_iter produces on
the same sequence: same pending contents and order, same empty produced
set. -/
theorem skip_visited_eq_from_iter (l : List T) :
    skip_visited l = from_iter l ∧ (skip_visited l).inner = l ∧
    (skip_visited l).visited = [] :=
  ⟨rfl, rfl, rfl⟩

/-- C9: next is a total function of the state (the embedding is structural
recursion on the finite pending queue, so one call always runs to
completion), and its whole state change is: drop some prefix of the pending
queue (each dropped element already produced, except possibly the returned
one) and add at most one element — the returned one — to the produced
set. -/
theorem next_frame (s : UnvisitedIterator T) :
    ∃ k, k ≤ s.inner.length ∧
      ((next s).2).inner = List.drop k s.inner ∧
      (((next s).1 = none ∧ ((next s).2).visited = s.visited ∧
          ∀ y ∈ List.take k s.inner, y ∈ s.visited) ∨
        (∃ x, (next s).1 = some x ∧ ((next s).2).visited = x :: s.visited ∧
          ∀ y ∈ List.take k s.inner, y ∈ s.visited ∨ y = x)) :=
  nextAux_frame s.visited s.inner

/-- C10: the derived Default implementation yields empty pending queue and
empty produced set, and next on it returns the end signal leaving the state
unchanged. -/
theorem default_spec :
    (defaultState : UnvisitedIterator T).visited = [] ∧
    (defaultState : UnvisitedIterator T).inner = [] ∧
    next (defaultState : UnvisitedIterator T) = (none, defaultState) :=
  ⟨rfl, rfl, rfl⟩

end Unvisited
